import Mathlib

/-!
# Verification of the `DifferentialEvolution` solver (`DiffEvo.ipynb`)

Shallow embedding of the `DifferentialEvolution` class from the repository's
notebook.  Numeric values are modelled over an arbitrary linear ordered field
`α` (instantiated at `ℚ` for concrete evaluations).  The numpy pseudo-random
stream is modelled as an explicit oracle (`RandomSource`): a stream `unif` of
scalar draws in `[0,1)` (each scalar produced by `np.random.rand`/
`np.random.uniform` consumes one tick of the counter `tu`) and a stream
`pair` consumed by `np.random.choice(idx_list, 2, replace = False)` (counter
`tp`); the raw pair is normalised to a pair of distinct indices below `npop`,
exactly the post-condition numpy guarantees for a without-replacement draw.

Failure points of the Python code are modelled with `Except String`:
`np.random.choice` rejecting a sample larger than the population,
`np.where` rejecting non-broadcastable shapes, out-of-range tuple indexing,
`np.argmin` on an empty array, and `zip(*...)` unpacking an empty stream.

Two deliberate features of the source are kept visible in the embedding:
the solver body reads the *module-level* variables `kmut` and `bounds`
(parameters `gkmut` and `gbounds` below), not the attributes `self.kmut` /
`self.bounds` stored at construction.
-/

set_option maxHeartbeats 1000000
set_option maxRecDepth 10000
set_option linter.unusedSectionVars false

namespace DiffEvo

/-- Oracle model of the `np.random` stream owned by one seeded run: `unif t`
is the `t`-th scalar uniform draw (intended range `[0,1)`), `pair t` the raw
material of the `t`-th call to `np.random.choice(idx_list, 2, replace = False)`. -/
structure RandomSource (α : Type*) where
  unif : ℕ → α
  pair : ℕ → ℕ × ℕ

/-- The configuration stored by `DifferentialEvolution.__init__` (the
evaluator `func`/`data` is passed separately, already closed over its data). -/
structure DEConfig (α : Type*) where
  kmut : α
  kcross : α
  nparam : ℕ
  npop : ℕ
  niter : ℕ
  bounds : Option (List (α × α))
  guess : Option (List α)
deriving DecidableEq

variable {α : Type*} [LinearOrderedField α]

/-- Embeds `DifferentialEvolution.__init__`: stores the configuration verbatim and
seeds the random stream.  The Python constructor contains no validation and
no failure path, hence it is the constant `.ok`. -/
def DifferentialEvolution.init (kmut kcross : α) (nparam npop niter : ℕ)
    (bounds : Option (List (α × α))) (guess : Option (List α)) :
    Except String (DEConfig α) :=
  .ok { kmut := kmut, kcross := kcross, nparam := nparam, npop := npop,
        niter := niter, bounds := bounds, guess := guess }

/-- Embeds `np.random.rand(n, m)`: an `n × m` matrix of uniform draws, filled
row-major from the stream starting at tick `t`. -/
def drawMatrix (src : RandomSource α) (t n m : ℕ) : List (List α) :=
  (List.range n).map (fun ii => (List.range m).map (fun jj => src.unif (t + ii * m + jj)))

/-- The rescaling loop of `population_generator`:
`[bounds[ii][0] + pop[ii] * (bounds[ii][1] - bounds[ii][0]) for ii in range(len(pop))]`,
iterating over the rows of the raw matrix; `bounds[ii]` raises `IndexError`
when `bounds` is shorter than the number of rows. -/
def scaleGo (bs : List (α × α)) : List (List α) → ℕ → Except String (List (List α))
  | [], _ => .ok []
  | row :: rest, ii =>
    match bs.get? ii with
    | none => .error "tuple index out of range"
    | some b =>
      match scaleGo bs rest (ii + 1) with
      | .error e => .error e
      | .ok rest' => .ok (row.map (fun x => b.1 + x * (b.2 - b.1)) :: rest')

/-- Embeds `pop[:, 0] = np.array(self.guess)` under Python truthiness
(`if self.guess:` is skipped for `None` and for an empty sequence);
numpy broadcasts a length-1 guess across the column and rejects any other
length mismatch. -/
def applyGuess : Option (List α) → List (List α) → Except String (List (List α))
  | none, mat => .ok mat
  | some [], mat => .ok mat
  | some (g0 :: gs), mat =>
    if (g0 :: gs).length = mat.length then
      .ok (List.zipWith (fun gi row => row.set 0 gi) (g0 :: gs) mat)
    else if gs.length = 0 then
      .ok (mat.map (fun row => row.set 0 g0))
    else .error "could not broadcast input array"

/-- Embeds `pop.T` for the rectangular matrix produced by `np.random.rand`. -/
def matTranspose (mat : List (List α)) : List (List α) :=
  (List.range (mat.headD []).length).map (fun jj => mat.map (fun row => row.getD jj 0))

/-- The raw draw followed by the conditional bound rescaling of
`population_generator` (`if self.bounds:` under Python truthiness). -/
def boundedMatrix (cfg : DEConfig α) (src : RandomSource α) (t : ℕ) :
    Except String (List (List α)) :=
  match cfg.bounds with
  | none => .ok (drawMatrix src t cfg.nparam cfg.npop)
  | some [] => .ok (drawMatrix src t cfg.nparam cfg.npop)
  | some (b0 :: bs) => scaleGo (b0 :: bs) (drawMatrix src t cfg.nparam cfg.npop) 0

/-- Embeds `DifferentialEvolution.population_generator`, started at stream tick `t`
(`np.random.rand(self.nparam, self.npop)` consumes `nparam * npop` ticks). -/
def population_generator (cfg : DEConfig α) (src : RandomSource α) (t : ℕ) :
    Except String (List (List α) × ℕ) :=
  match boundedMatrix cfg src t with
  | .error e => .error e
  | .ok mat =>
    match applyGuess cfg.guess mat with
    | .error e => .error e
    | .ok mat2 => .ok (matTranspose mat2, t + cfg.nparam * cfg.npop)

/-- The scan performed by `np.argmin`: first index of the minimum value. -/
def argminGo : List α → ℕ → ℕ → α → ℕ × α
  | [], _, bi, bv => (bi, bv)
  | x :: xs, i, bi, bv =>
    if x < bv then argminGo xs (i + 1) i x else argminGo xs (i + 1) bi bv

/-- Embeds `DifferentialEvolution.least_error_idx`: evaluate the objective once per
member and return index and value of the least error (`np.argmin` rejects an
empty array). -/
def least_error_idx (f : List α → α) (pop : List (List α)) : Except String (ℕ × α) :=
  match pop.map f with
  | [] => .error "attempt to get argmin of an empty sequence"
  | e :: es => .ok (argminGo es 1 0 e)

/-- The mutable state of one `diff_evolution_solver` run: the population, the
current best-fit pair, and the two random-stream counters. -/
structure DEState (α : Type*) where
  pop : List (List α)
  bestfit : List α
  lst_err : α
  tu : ℕ
  tp : ℕ
deriving DecidableEq

/-- Embeds `np.random.choice(idx_list, 2, replace = False)`: fails when the sample
is larger than the population, otherwise produces two distinct indices below
`npop` (the raw oracle pair is normalised onto exactly that set of outcomes). -/
def npChoice2 (npop : ℕ) (src : RandomSource α) (tp : ℕ) :
    Except String ((ℕ × ℕ) × ℕ) :=
  if npop < 2 then
    .error "Cannot take a larger sample than population when replace is False"
  else
    let p := src.pair tp
    .ok ((p.1 % npop, (p.1 % npop + 1 + p.2 % (npop - 1)) % npop), tp + 1)

/-- Elementwise numpy vector addition (operands in the solver are rows of the
same rectangular population, so equal lengths). -/
def vAdd (u v : List α) : List α := List.zipWith (fun a b => a + b) u v

/-- Elementwise numpy vector subtraction. -/
def vSub (u v : List α) : List α := List.zipWith (fun a b => a - b) u v

/-- Scalar multiple of a numpy vector. -/
def sMul (k : α) (v : List α) : List α := v.map (fun x => k * x)

/-- Broadcast element access for a 1-D numpy operand. -/
def bGet (l : List α) (d : α) (i : ℕ) : α :=
  if l.length = 1 then l.headD d else l.getD i d

/-- Broadcast element access for a 1-D boolean numpy operand. -/
def bGetB (l : List Bool) (i : ℕ) : Bool :=
  if l.length = 1 then l.headD false else l.getD i false

/-- Embeds `np.where(cross, trial, ind)` with 1-D broadcasting: every operand must
have the common length or length 1, otherwise numpy raises a broadcast error. -/
def numpyWhere (c : List Bool) (x y : List α) : Except String (List α) :=
  if (c.length = max c.length (max x.length y.length) ∨ c.length = 1) ∧
     (x.length = max c.length (max x.length y.length) ∨ x.length = 1) ∧
     (y.length = max c.length (max x.length y.length) ∨ y.length = 1) then
    .ok ((List.range (max c.length (max x.length y.length))).map
      (fun i => if bGetB c i then bGet x 0 i else bGet y 0 i))
  else .error "operands could not be broadcast together"

/-- Embeds `cross = np.concatenate((np.random.rand(3) <= self.kcross, np.array([True])))`:
three Bernoulli draws (consuming three stream ticks) concatenated with an
unconditional `True` — the mask has length 4 regardless of `nparam`. -/
def crossMask (src : RandomSource α) (tu : ℕ) (kcross : α) : List Bool × ℕ :=
  ([decide (src.unif tu ≤ kcross), decide (src.unif (tu + 1) ≤ kcross),
    decide (src.unif (tu + 2) ≤ kcross), true], tu + 3)

/-- Embeds `pop[:, j]`: column `j` of the population. -/
def column (pop : List (List α)) (j : ℕ) : List α :=
  pop.map (fun row => row.getD j 0)

/-- Embeds `np.min` over a 1-D array (the solver only applies it to nonempty columns). -/
def listMin : List α → α
  | [] => 0
  | x :: xs => xs.foldl min x

/-- Embeds `np.max` over a 1-D array. -/
def listMax : List α → α
  | [] => 0
  | x :: xs => xs.foldl max x

/-- Embeds `pop[:, j].min()`. -/
def colMin (pop : List (List α)) (j : ℕ) : α := listMin (column pop j)

/-- Embeds `pop[:, j].max()`. -/
def colMax (pop : List (List α)) (j : ℕ) : α := listMax (column pop j)

/-- The bound-repair loop of the solver:
`for j, param in enumerate(trial): if not (param >= bounds[j][0] and param <= bounds[j][1]): trial[j] = pop[:, j].min() + np.random.uniform() * (pop[:, j].max() - pop[:, j].min())`.
`bounds` here is the *module-level* variable (`gbounds`); each triggered
repair consumes one uniform tick. -/
def repairGo (gbounds : List (α × α)) (pop : List (List α)) (src : RandomSource α) :
    List α → ℕ → ℕ → Except String (List α × ℕ)
  | [], _, tu => .ok ([], tu)
  | v :: vs, j, tu =>
    match gbounds.get? j with
    | none => .error "tuple index out of range"
    | some b =>
      if b.1 ≤ v ∧ v ≤ b.2 then
        match repairGo gbounds pop src vs (j + 1) tu with
        | .error e => .error e
        | .ok (vs', tu') => .ok (v :: vs', tu')
      else
        match repairGo gbounds pop src vs (j + 1) (tu + 1) with
        | .error e => .error e
        | .ok (vs', tu') =>
          .ok ((colMin pop j + src.unif tu * (colMax pop j - colMin pop j)) :: vs', tu')

/-- One iteration of the inner loop of `diff_evolution_solver` for member
index `i`: mutation (`trial = bestfit + kmut * (pop[r1] - pop[r2])`, with the
*module-level* `kmut` = `gkmut`), crossover, bound repair, greedy selection
and conditional best-fit update; returns the new state and the optionally
yielded `(bestfit, lst_err)` pair. -/
def innerStep (cfg : DEConfig α) (f : List α → α) (gkmut : α)
    (gbounds : List (α × α)) (src : RandomSource α) (st : DEState α) (i : ℕ) :
    Except String (DEState α × Option (List α × α)) :=
  match npChoice2 cfg.npop src st.tp with
  | .error e => .error e
  | .ok rt =>
    match numpyWhere (crossMask src st.tu cfg.kcross).1
        (vAdd st.bestfit (sMul gkmut (vSub (st.pop.getD rt.1.1 []) (st.pop.getD rt.1.2 []))))
        (st.pop.getD i []) with
    | .error e => .error e
    | .ok trial1 =>
      match repairGo gbounds st.pop src trial1 0 (crossMask src st.tu cfg.kcross).2 with
      | .error e => .error e
      | .ok pr =>
        if f pr.1 < f (st.pop.getD i []) then
          if f pr.1 < st.lst_err then
            .ok (⟨st.pop.set i pr.1, pr.1, f pr.1, pr.2, rt.2⟩, some (pr.1, f pr.1))
          else
            .ok (⟨st.pop.set i pr.1, st.bestfit, st.lst_err, pr.2, rt.2⟩, none)
        else
          .ok (⟨st.pop, st.bestfit, st.lst_err, pr.2, rt.2⟩, none)

/-- Embeds `for i, ind in enumerate(pop)`: run the inner loop over the given member
indices, concatenating the yielded improvements in order. -/
def runMembers (cfg : DEConfig α) (f : List α → α) (gkmut : α)
    (gbounds : List (α × α)) (src : RandomSource α) :
    List ℕ → DEState α → Except String (DEState α × List (List α × α))
  | [], st => .ok (st, [])
  | i :: rest, st =>
    match innerStep cfg f gkmut gbounds src st i with
    | .error e => .error e
    | .ok (st', e?) =>
      match runMembers cfg f gkmut gbounds src rest st' with
      | .error e => .error e
      | .ok (st'', es) => .ok (st'', e?.toList ++ es)

/-- Embeds `for iter in tqdm(range(self.niter))`: the outer generation loop. -/
def runGens (cfg : DEConfig α) (f : List α → α) (gkmut : α)
    (gbounds : List (α × α)) (src : RandomSource α) :
    ℕ → DEState α → Except String (DEState α × List (List α × α))
  | 0, st => .ok (st, [])
  | Nat.succ n, st =>
    match runMembers cfg f gkmut gbounds src (List.range cfg.npop) st with
    | .error e => .error e
    | .ok (st', es) =>
      match runGens cfg f gkmut gbounds src n st' with
      | .error e => .error e
      | .ok (st'', es') => .ok (st'', es ++ es')

/-- Embeds `DifferentialEvolution.diff_evolution_solver`: generate the population,
establish the initial best fit, then run `niter` generations; the returned
list is the full improvement stream in emission order. -/
def diff_evolution_solver (cfg : DEConfig α) (f : List α → α) (gkmut : α)
    (gbounds : List (α × α)) (src : RandomSource α) :
    Except String (DEState α × List (List α × α)) :=
  match population_generator cfg src 0 with
  | .error e => .error e
  | .ok pt =>
    match least_error_idx f pt.1 with
    | .error e => .error e
    | .ok le =>
      runGens cfg f gkmut gbounds src cfg.niter
        ⟨pt.1, pt.1.getD le.1 [], le.2, pt.2, 0⟩

/-- Embeds `DifferentialEvolution.result`:
`res, err = zip(*tuple(self.diff_evolution_solver())); return res[-1]` —
unpacking the empty stream raises `ValueError`. -/
def result (cfg : DEConfig α) (f : List α → α) (gkmut : α)
    (gbounds : List (α × α)) (src : RandomSource α) : Except String (List α) :=
  match diff_evolution_solver cfg f gkmut gbounds src with
  | .error e => .error e
  | .ok pr =>
    match pr.2.getLast? with
    | some p => .ok p.1
    | none => .error "not enough values to unpack"

/-- Checks `low ≤ v ≤ high` for one bound entry. -/
def inBnd (b : α × α) (v : α) : Bool := decide (b.1 ≤ v) && decide (v ≤ b.2)

/-- A vector satisfies a bounds list pointwise (and has matching length). -/
def vecInB : List (α × α) → List α → Bool
  | [], [] => true
  | b :: bs, v :: vs => inBnd b v && vecInB bs vs
  | _, _ => false

/-- The emitted cost history strictly decreases below the starting cost. -/
def costsDec : α → List α → Prop
  | _, [] => True
  | c, x :: xs => x < c ∧ costsDec x xs

/-! ## Helper lemmas -/

theorem costsDec_append {c : α} {l1 l2 : List α} (h1 : costsDec c l1)
    (h2 : costsDec (l1.getLastD c) l2) : costsDec c (l1 ++ l2) := by
  induction l1 generalizing c with
  | nil => simpa using h2
  | cons x xs ih =>
    obtain ⟨hx, hxs⟩ := h1
    rw [List.getLastD_cons] at h2
    exact ⟨hx, ih hxs h2⟩

theorem getLastD_append_eq (c : α) (l1 l2 : List α) :
    (l1 ++ l2).getLastD c = l2.getLastD (l1.getLastD c) := by
  induction l1 generalizing c with
  | nil => simp
  | cons x xs ih => rw [List.cons_append, List.getLastD_cons, List.getLastD_cons, ih]

/-- A successful inner step either leaves best fit and cost unchanged (no
emission), or emits exactly the new strictly better best-fit pair. -/
theorem innerStep_ok_lst {cfg : DEConfig α} {f : List α → α} {gkmut : α}
    {gbounds : List (α × α)} {src : RandomSource α} {st st' : DEState α}
    {i : ℕ} {e? : Option (List α × α)}
    (h : innerStep cfg f gkmut gbounds src st i = .ok (st', e?)) :
    (e? = none ∧ st'.lst_err = st.lst_err ∧ st'.bestfit = st.bestfit) ∨
    (∃ p, e? = some p ∧ p.2 < st.lst_err ∧ st'.lst_err = p.2 ∧ st'.bestfit = p.1) := by
  unfold innerStep at h
  split at h
  · exact absurd h (by simp)
  · split at h
    · exact absurd h (by simp)
    · split at h
      · exact absurd h (by simp)
      · split at h
        · split at h
          · rename_i hlt1 hlt2
            simp only [Except.ok.injEq, Prod.mk.injEq] at h
            obtain ⟨hst, he⟩ := h
            subst hst; subst he
            exact Or.inr ⟨_, rfl, hlt2, rfl, rfl⟩
          · simp only [Except.ok.injEq, Prod.mk.injEq] at h
            obtain ⟨hst, he⟩ := h
            subst hst; subst he
            exact Or.inl ⟨rfl, rfl, rfl⟩
        · simp only [Except.ok.injEq, Prod.mk.injEq] at h
          obtain ⟨hst, he⟩ := h
          subst hst; subst he
          exact Or.inl ⟨rfl, rfl, rfl⟩

/-- Over one generation's member sweep the emitted costs strictly decrease
starting below the incoming best cost, and the final best cost is the last
emitted cost (or unchanged when nothing is emitted). -/
theorem runMembers_costs {cfg : DEConfig α} {f : List α → α} {gkmut : α}
    {gbounds : List (α × α)} {src : RandomSource α} :
    ∀ (idxs : List ℕ) (st : DEState α) {st' : DEState α} {es : List (List α × α)},
      runMembers cfg f gkmut gbounds src idxs st = .ok (st', es) →
      costsDec st.lst_err (es.map Prod.snd) ∧
        st'.lst_err = (es.map Prod.snd).getLastD st.lst_err := by
  intro idxs
  induction idxs with
  | nil =>
    intro st st' es h
    simp only [runMembers, Except.ok.injEq, Prod.mk.injEq] at h
    obtain ⟨hst, he⟩ := h
    subst hst; subst he
    exact ⟨trivial, rfl⟩
  | cons i rest ih =>
    intro st st' es h
    unfold runMembers at h
    split at h
    · exact absurd h (by simp)
    · rename_i hstep
      split at h
      · exact absurd h (by simp)
      · rename_i st1 e? hrest
        simp only [Except.ok.injEq, Prod.mk.injEq] at h
        obtain ⟨hst, he⟩ := h
        subst hst; subst he
        obtain ⟨hcd, hlast⟩ := ih _ hrest
        rcases innerStep_ok_lst hstep with ⟨hnone, hlst, _⟩ | ⟨p, hsome, hplt, hplst, _⟩
        · subst hnone
          simp only [Option.toList, List.nil_append]
          rw [hlst] at hcd hlast
          exact ⟨hcd, hlast⟩
        · subst hsome
          simp only [Option.toList, List.singleton_append, List.map_cons]
          rw [hplst] at hcd hlast
          exact ⟨⟨hplt, hcd⟩, by rw [hlast, List.getLastD_cons]⟩

/-- Across all generations the emitted costs strictly decrease below the
initial best cost, and the final best cost is the last emitted cost. -/
theorem runGens_costs {cfg : DEConfig α} {f : List α → α} {gkmut : α}
    {gbounds : List (α × α)} {src : RandomSource α} :
    ∀ (n : ℕ) (st : DEState α) {st' : DEState α} {es : List (List α × α)},
      runGens cfg f gkmut gbounds src n st = .ok (st', es) →
      costsDec st.lst_err (es.map Prod.snd) ∧
        st'.lst_err = (es.map Prod.snd).getLastD st.lst_err := by
  intro n
  induction n with
  | zero =>
    intro st st' es h
    simp only [runGens, Except.ok.injEq, Prod.mk.injEq] at h
    obtain ⟨hst, he⟩ := h
    subst hst; subst he
    exact ⟨trivial, rfl⟩
  | succ m ih =>
    intro st st' es h
    unfold runGens at h
    split at h
    · exact absurd h (by simp)
    · rename_i st1 es1 hgen
      split at h
      · exact absurd h (by simp)
      · rename_i st2 es2 hrest
        simp only [Except.ok.injEq, Prod.mk.injEq] at h
        obtain ⟨hst, he⟩ := h
        subst hst; subst he
        obtain ⟨hcd1, hlast1⟩ := runMembers_costs _ _ hgen
        obtain ⟨hcd2, hlast2⟩ := ih _ hrest
        rw [hlast1] at hcd2 hlast2
        refine ⟨?_, ?_⟩
        · rw [List.map_append]
          exact costsDec_append hcd1 hcd2
        · rw [List.map_append, getLastD_append_eq]
          exact hlast2

/-- A `costsDec` chain below any starting cost yields a strictly decreasing chain of
emitted pairs. -/
theorem chain_of_costsDec :
    ∀ {es : List (List α × α)} {c : α}, costsDec c (es.map Prod.snd) →
      List.Chain' (fun p q : List α × α => q.2 < p.2) es := by
  intro es
  induction es with
  | nil => intro c _; simp
  | cons p rest ih =>
    intro c h
    obtain ⟨_, hrest⟩ := h
    cases rest with
    | nil => simp
    | cons q rest' =>
      rw [List.chain'_cons]
      exact ⟨hrest.1, ih hrest⟩

theorem foldl_min_le_init (l : List α) (a : α) : l.foldl min a ≤ a := by
  induction l generalizing a with
  | nil => exact le_refl a
  | cons x xs ih => exact le_trans (ih (min a x)) (min_le_left a x)

theorem le_foldl_min {c : α} {l : List α} {a : α} (ha : c ≤ a)
    (hl : ∀ x ∈ l, c ≤ x) : c ≤ l.foldl min a := by
  induction l generalizing a with
  | nil => exact ha
  | cons x xs ih =>
    exact ih (le_min ha (hl x (List.mem_cons_self x xs)))
      (fun y hy => hl y (List.mem_cons_of_mem x hy))

theorem init_le_foldl_max (l : List α) (a : α) : a ≤ l.foldl max a := by
  induction l generalizing a with
  | nil => exact le_refl a
  | cons x xs ih => exact le_trans (le_max_left a x) (ih (max a x))

theorem foldl_max_le {c : α} {l : List α} {a : α} (ha : a ≤ c)
    (hl : ∀ x ∈ l, x ≤ c) : l.foldl max a ≤ c := by
  induction l generalizing a with
  | nil => exact ha
  | cons x xs ih =>
    exact ih (max_le ha (hl x (List.mem_cons_self x xs)))
      (fun y hy => hl y (List.mem_cons_of_mem x hy))

theorem listMin_le_listMax {l : List α} (h : l ≠ []) : listMin l ≤ listMax l := by
  cases l with
  | nil => exact absurd rfl h
  | cons x xs =>
    exact le_trans (foldl_min_le_init xs x) (init_le_foldl_max xs x)

theorem le_listMin {c : α} {l : List α} (h : l ≠ []) (hl : ∀ x ∈ l, c ≤ x) :
    c ≤ listMin l := by
  cases l with
  | nil => exact absurd rfl h
  | cons x xs =>
    exact le_foldl_min (hl x (List.mem_cons_self x xs))
      (fun y hy => hl y (List.mem_cons_of_mem x hy))

theorem listMax_le {c : α} {l : List α} (h : l ≠ []) (hl : ∀ x ∈ l, x ≤ c) :
    listMax l ≤ c := by
  cases l with
  | nil => exact absurd rfl h
  | cons x xs =>
    exact foldl_max_le (hl x (List.mem_cons_self x xs))
      (fun y hy => hl y (List.mem_cons_of_mem x hy))

theorem colMin_le_colMax {pop : List (List α)} (h : pop ≠ []) (j : ℕ) :
    colMin pop j ≤ colMax pop j := by
  have : column pop j ≠ [] := by
    simpa [column] using h
  exact listMin_le_listMax this

/-- A value `colMin + u * (colMax - colMin)` with `0 ≤ u < 1` lies in the
closed empirical interval `[colMin, colMax]`. -/
theorem repair_value_in_empirical_range {pop : List (List α)} (hne : pop ≠ [])
    (j : ℕ) {u : α} (hu0 : 0 ≤ u) (hu1 : u < 1) :
    colMin pop j ≤ colMin pop j + u * (colMax pop j - colMin pop j) ∧
    colMin pop j + u * (colMax pop j - colMin pop j) ≤ colMax pop j := by
  have hd : 0 ≤ colMax pop j - colMin pop j := sub_nonneg.mpr (colMin_le_colMax hne j)
  constructor
  · nlinarith
  · nlinarith

/-- Pointwise characterisation of the bound-repair loop: a value inside its
`gbounds` interval is kept verbatim; a value outside is replaced by
`colMin + u * (colMax - colMin)` for some stream draw `u`. -/
theorem repairGo_spec {gb : List (α × α)} {pop : List (List α)}
    {src : RandomSource α} :
    ∀ {vs : List α} {j tu : ℕ} {vs' : List α} {tu' : ℕ},
      repairGo gb pop src vs j tu = .ok (vs', tu') →
      vs'.length = vs.length ∧
      ∀ k b, gb.get? (j + k) = some b → k < vs.length →
        ((b.1 ≤ vs.getD k 0 ∧ vs.getD k 0 ≤ b.2) → vs'.getD k 0 = vs.getD k 0) ∧
        (¬ (b.1 ≤ vs.getD k 0 ∧ vs.getD k 0 ≤ b.2) →
          ∃ s, vs'.getD k 0
            = colMin pop (j + k) + src.unif s * (colMax pop (j + k) - colMin pop (j + k))) := by
  intro vs
  induction vs with
  | nil =>
    intro j tu vs' tu' h
    simp only [repairGo, Except.ok.injEq, Prod.mk.injEq] at h
    obtain ⟨hv, _⟩ := h
    subst hv
    exact ⟨rfl, fun k b _ hk => absurd hk (by simp)⟩
  | cons v rest ih =>
    intro j tu vs' tu' h
    unfold repairGo at h
    cases hb : gb.get? j with
    | none => rw [hb] at h; exact absurd h (by simp)
    | some b =>
      rw [hb] at h
      simp only at h
      by_cases hin : b.1 ≤ v ∧ v ≤ b.2
      · rw [if_pos hin] at h
        cases hrec : repairGo gb pop src rest (j + 1) tu with
        | error e => rw [hrec] at h; exact absurd h (by simp)
        | ok pr =>
          obtain ⟨vs1, tu1⟩ := pr
          rw [hrec] at h
          simp only [Except.ok.injEq, Prod.mk.injEq] at h
          obtain ⟨hv, _⟩ := h
          subst hv
          obtain ⟨hlen, hchar⟩ := ih hrec
          refine ⟨by simpa using hlen, ?_⟩
          intro k b' hk hklt
          cases k with
          | zero =>
            rw [Nat.add_zero] at hk
            rw [hb] at hk
            injection hk with hbb
            subst hbb
            exact ⟨fun _ => rfl, fun hcon => absurd hin hcon⟩
          | succ k' =>
            have harith : j + (k' + 1) = (j + 1) + k' := by omega
            rw [harith] at hk
            have hklt' : k' < rest.length := by simpa using Nat.lt_of_succ_lt_succ hklt
            have := hchar k' b' hk hklt'
            simpa [List.getD_cons_succ, harith] using this
      · rw [if_neg hin] at h
        cases hrec : repairGo gb pop src rest (j + 1) (tu + 1) with
        | error e => rw [hrec] at h; exact absurd h (by simp)
        | ok pr =>
          obtain ⟨vs1, tu1⟩ := pr
          rw [hrec] at h
          simp only [Except.ok.injEq, Prod.mk.injEq] at h
          obtain ⟨hv, _⟩ := h
          subst hv
          obtain ⟨hlen, hchar⟩ := ih hrec
          refine ⟨by simpa using hlen, ?_⟩
          intro k b' hk hklt
          cases k with
          | zero =>
            rw [Nat.add_zero] at hk
            rw [hb] at hk
            injection hk with hbb
            subst hbb
            exact ⟨fun hcon => absurd hcon hin, fun _ => ⟨tu, rfl⟩⟩
          | succ k' =>
            have harith : j + (k' + 1) = (j + 1) + k' := by omega
            rw [harith] at hk
            have hklt' : k' < rest.length := by simpa using Nat.lt_of_succ_lt_succ hklt
            have := hchar k' b' hk hklt'
            simpa [List.getD_cons_succ, harith] using this

theorem vecInB_length {bs : List (α × α)} :
    ∀ {v : List α}, vecInB bs v = true → v.length = bs.length := by
  induction bs with
  | nil =>
    intro v h
    cases v with
    | nil => rfl
    | cons x xs => simp [vecInB] at h
  | cons b brest ih =>
    intro v h
    cases v with
    | nil => simp [vecInB] at h
    | cons x xs =>
      simp only [vecInB, Bool.and_eq_true] at h
      simp only [List.length_cons]
      rw [ih h.2]

theorem vecInB_get {bs : List (α × α)} :
    ∀ {v : List α}, vecInB bs v = true →
      ∀ j b, bs.get? j = some b → b.1 ≤ v.getD j 0 ∧ v.getD j 0 ≤ b.2 := by
  induction bs with
  | nil =>
    intro v _ j b hj
    simp at hj
  | cons b0 brest ih =>
    intro v h j b hj
    cases v with
    | nil => simp [vecInB] at h
    | cons x xs =>
      simp only [vecInB, Bool.and_eq_true, inBnd, decide_eq_true_eq] at h
      cases j with
      | zero =>
        simp only [List.get?_cons_zero, Option.some.injEq] at hj
        subst hj
        simpa using h.1
      | succ j' =>
        simp only [List.get?_cons_succ] at hj
        simpa using ih h.2 j' b hj

theorem vecInB_of_forall {bs : List (α × α)} :
    ∀ {v : List α}, v.length = bs.length →
      (∀ j b, bs.get? j = some b → b.1 ≤ v.getD j 0 ∧ v.getD j 0 ≤ b.2) →
      vecInB bs v = true := by
  induction bs with
  | nil =>
    intro v hlen _
    cases v with
    | nil => rfl
    | cons x xs => simp at hlen
  | cons b0 brest ih =>
    intro v hlen hall
    cases v with
    | nil => simp at hlen
    | cons x xs =>
      simp only [vecInB, Bool.and_eq_true]
      constructor
      · have := hall 0 b0 rfl
        simp only [List.getD_cons_zero] at this
        simp [inBnd, this.1, this.2]
      · refine ih (by simpa using hlen) ?_
        intro j b hj
        have := hall (j + 1) b (by simpa using hj)
        simpa using this

/-- Columns of a population of in-bounds members stay within the bound for
that column. -/
theorem col_bounds {bs : List (α × α)} {pop : List (List α)} {j : ℕ} {b : α × α}
    (hmem : ∀ m ∈ pop, vecInB bs m = true) (hne : pop ≠ [])
    (hj : bs.get? j = some b) :
    b.1 ≤ colMin pop j ∧ colMax pop j ≤ b.2 := by
  have hcne : column pop j ≠ [] := by simpa [column] using hne
  constructor
  · refine le_listMin hcne ?_
    intro x hx
    simp only [column, List.mem_map] at hx
    obtain ⟨m, hm, rfl⟩ := hx
    exact (vecInB_get (hmem m hm) j b hj).1
  · refine listMax_le hcne ?_
    intro x hx
    simp only [column, List.mem_map] at hx
    obtain ⟨m, hm, rfl⟩ := hx
    exact (vecInB_get (hmem m hm) j b hj).2

/-- Bound repair of a vector matching the bound list in length produces an
in-bounds vector, given an in-bounds population to draw the repair values
from. -/
theorem repair_preserves_inB {bs : List (α × α)} {pop : List (List α)}
    {src : RandomSource α} {vs vs' : List α} {tu tu' : ℕ}
    (h : repairGo bs pop src vs 0 tu = .ok (vs', tu'))
    (hlen : vs.length = bs.length)
    (hmem : ∀ m ∈ pop, vecInB bs m = true) (hne : pop ≠ [])
    (hu : ∀ s, 0 ≤ src.unif s ∧ src.unif s < 1) :
    vecInB bs vs' = true := by
  obtain ⟨hlen', hchar⟩ := repairGo_spec h
  refine vecInB_of_forall (by rw [hlen', hlen]) ?_
  intro j b hj
  have hjlt : j < vs.length := by
    rw [hlen]
    exact (List.get?_eq_some.mp hj).1
  have hj0 : bs.get? (0 + j) = some b := by simpa using hj
  obtain ⟨hkeep, hrep⟩ := hchar j b hj0 hjlt
  by_cases hin : b.1 ≤ vs.getD j 0 ∧ vs.getD j 0 ≤ b.2
  · rw [hkeep hin]
    exact hin
  · obtain ⟨s, hs⟩ := hrep hin
    simp only [Nat.zero_add] at hs
    obtain ⟨hlow, hhigh⟩ :=
      repair_value_in_empirical_range hne j (hu s).1 (hu s).2
    obtain ⟨hbl, hbh⟩ := col_bounds hmem hne hj
    rw [hs]
    exact ⟨le_trans hbl hlow, le_trans hhigh hbh⟩

theorem getD_nil_or_mem (pop : List (List α)) (r : ℕ) :
    pop.getD r [] = [] ∨ pop.getD r [] ∈ pop := by
  rcases Nat.lt_or_ge r pop.length with hr | hr
  · right
    rw [List.getD_eq_getElem?_getD, List.getElem?_eq_getElem hr]
    exact List.getElem_mem hr
  · left
    rw [List.getD_eq_getElem?_getD, List.getElem?_eq_none hr]
    rfl

/-- A successful `np.where` with a length-4 mask and vector operands of
length 0 or 4 forces both operands (and the output) to length 4. -/
theorem numpyWhere_ok_len4 {c : List Bool} {x y t : List α}
    (hc : c.length = 4) (hx : x.length = 0 ∨ x.length = 4)
    (hy : y.length = 0 ∨ y.length = 4)
    (h : numpyWhere c x y = .ok t) : t.length = 4 := by
  unfold numpyWhere at h
  split at h
  · rename_i hcond
    obtain ⟨h1, h2, h3⟩ := hcond
    simp only [Except.ok.injEq] at h
    subst h
    simp only [List.length_map, List.length_range]
    rw [hc] at h1 h2 h3 ⊢
    have h4 : 4 ≤ max 4 (max x.length y.length) := le_max_left _ _
    have hxm : x.length ≤ max 4 (max x.length y.length) :=
      le_trans (le_max_left _ _) (le_max_right _ _)
    have hym : y.length ≤ max 4 (max x.length y.length) :=
      le_trans (le_max_right _ _) (le_max_right _ _)
    rcases hx with hx | hx <;> rcases hy with hy | hy <;>
      rcases h2 with h2 | h2 <;> rcases h3 with h3 | h3 <;> omega
  · exact absurd h (by simp)

/-- The invariant carried through a run for claim C5: all population members
and the best-fit vector satisfy the bounds pointwise. -/
def popInv (bs : List (α × α)) (st : DEState α) : Prop :=
  (∀ m ∈ st.pop, vecInB bs m = true) ∧ st.pop ≠ [] ∧ vecInB bs st.bestfit = true

/-- One inner step preserves the bounds invariant when the crossover
dimension (4) matches `nparam` and the repair bounds are the configured
bounds. -/
theorem innerStep_preserves_popInv {cfg : DEConfig α} {f : List α → α}
    {gkmut : α} {bs : List (α × α)} {src : RandomSource α}
    {st st' : DEState α} {i : ℕ} {e? : Option (List α × α)}
    (hbs : bs.length = 4)
    (hu : ∀ s, 0 ≤ src.unif s ∧ src.unif s < 1)
    (h : innerStep cfg f gkmut bs src st i = .ok (st', e?))
    (hinv : popInv bs st) : popInv bs st' := by
  obtain ⟨hmem, hne, hbest⟩ := hinv
  unfold innerStep at h
  cases hch : npChoice2 cfg.npop src st.tp with
  | error e => rw [hch] at h; exact absurd h (by simp)
  | ok rt =>
    rw [hch] at h
    simp only at h
    cases hw : numpyWhere (crossMask src st.tu cfg.kcross).1
        (vAdd st.bestfit
          (sMul gkmut (vSub (st.pop.getD rt.1.1 []) (st.pop.getD rt.1.2 []))))
        (st.pop.getD i []) with
    | error e => rw [hw] at h; exact absurd h (by simp)
    | ok trial1 =>
      rw [hw] at h
      simp only at h
      cases hrg : repairGo bs st.pop src trial1 0 (crossMask src st.tu cfg.kcross).2 with
      | error e => rw [hrg] at h; exact absurd h (by simp)
      | ok pr =>
        obtain ⟨trialv, tu2⟩ := pr
        rw [hrg] at h
        simp only at h
        have hbestlen : st.bestfit.length = 4 := by
          rw [vecInB_length hbest, hbs]
        have hgetlen : ∀ r : ℕ, (st.pop.getD r []).length = 0 ∨
            (st.pop.getD r []).length = 4 := by
          intro r
          rcases getD_nil_or_mem st.pop r with hnil | hm
          · left; rw [hnil]; rfl
          · right; rw [vecInB_length (hmem _ hm), hbs]
        have hxlen : (vAdd st.bestfit
            (sMul gkmut (vSub (st.pop.getD rt.1.1 []) (st.pop.getD rt.1.2 [])))).length = 0 ∨
            (vAdd st.bestfit
            (sMul gkmut (vSub (st.pop.getD rt.1.1 []) (st.pop.getD rt.1.2 [])))).length = 4 := by
          simp only [vAdd, vSub, sMul, List.length_zipWith, List.length_map]
          rcases hgetlen rt.1.1 with ha | ha <;> rcases hgetlen rt.1.2 with hb | hb <;>
            rw [ha, hb, hbestlen] <;> simp
        have hclen : (crossMask src st.tu cfg.kcross).1.length = 4 := rfl
        have htlen : trial1.length = 4 :=
          numpyWhere_ok_len4 hclen hxlen (hgetlen i) hw
        have htrial : vecInB bs trialv = true :=
          repair_preserves_inB hrg (by rw [htlen, hbs]) hmem hne hu
        have hsetmem : ∀ m ∈ st.pop.set i trialv, vecInB bs m = true := by
          intro m hm
          rcases List.mem_or_eq_of_mem_set hm with hm' | hm'
          · exact hmem m hm'
          · rw [hm']; exact htrial
        have hsetne : st.pop.set i trialv ≠ [] := by
          intro hc
          have := congrArg List.length hc
          simp only [List.length_set] at this
          exact hne (List.length_eq_zero.mp this)
        split at h
        · split at h
          · simp only [Except.ok.injEq, Prod.mk.injEq] at h
            obtain ⟨hst, _⟩ := h
            subst hst
            exact ⟨hsetmem, hsetne, htrial⟩
          · simp only [Except.ok.injEq, Prod.mk.injEq] at h
            obtain ⟨hst, _⟩ := h
            subst hst
            exact ⟨hsetmem, hsetne, hbest⟩
        · simp only [Except.ok.injEq, Prod.mk.injEq] at h
          obtain ⟨hst, _⟩ := h
          subst hst
          exact ⟨hmem, hne, hbest⟩

theorem runMembers_preserves_popInv {cfg : DEConfig α} {f : List α → α}
    {gkmut : α} {bs : List (α × α)} {src : RandomSource α}
    (hbs : bs.length = 4)
    (hu : ∀ s, 0 ≤ src.unif s ∧ src.unif s < 1) :
    ∀ (idxs : List ℕ) (st : DEState α) {st' : DEState α} {es : List (List α × α)},
      runMembers cfg f gkmut bs src idxs st = .ok (st', es) →
      popInv bs st → popInv bs st' := by
  intro idxs
  induction idxs with
  | nil =>
    intro st st' es h hinv
    simp only [runMembers, Except.ok.injEq, Prod.mk.injEq] at h
    obtain ⟨hst, _⟩ := h
    subst hst
    exact hinv
  | cons i rest ih =>
    intro st st' es h hinv
    unfold runMembers at h
    cases hstep : innerStep cfg f gkmut bs src st i with
    | error e => rw [hstep] at h; exact absurd h (by simp)
    | ok pr =>
      rw [hstep] at h
      simp only at h
      cases hrest : runMembers cfg f gkmut bs src rest pr.1 with
      | error e => rw [hrest] at h; exact absurd h (by simp)
      | ok pr2 =>
        rw [hrest] at h
        simp only [Except.ok.injEq, Prod.mk.injEq] at h
        obtain ⟨hst, _⟩ := h
        subst hst
        exact ih pr.1 hrest (innerStep_preserves_popInv hbs hu hstep hinv)

theorem runGens_preserves_popInv {cfg : DEConfig α} {f : List α → α}
    {gkmut : α} {bs : List (α × α)} {src : RandomSource α}
    (hbs : bs.length = 4)
    (hu : ∀ s, 0 ≤ src.unif s ∧ src.unif s < 1) :
    ∀ (n : ℕ) (st : DEState α) {st' : DEState α} {es : List (List α × α)},
      runGens cfg f gkmut bs src n st = .ok (st', es) →
      popInv bs st → popInv bs st' := by
  intro n
  induction n with
  | zero =>
    intro st st' es h hinv
    simp only [runGens, Except.ok.injEq, Prod.mk.injEq] at h
    obtain ⟨hst, _⟩ := h
    subst hst
    exact hinv
  | succ m ih =>
    intro st st' es h hinv
    unfold runGens at h
    cases hgen : runMembers cfg f gkmut bs src (List.range cfg.npop) st with
    | error e => rw [hgen] at h; exact absurd h (by simp)
    | ok pr =>
      rw [hgen] at h
      simp only at h
      cases hrest : runGens cfg f gkmut bs src m pr.1 with
      | error e => rw [hrest] at h; exact absurd h (by simp)
      | ok pr2 =>
        rw [hrest] at h
        simp only [Except.ok.injEq, Prod.mk.injEq] at h
        obtain ⟨hst, _⟩ := h
        subst hst
        exact ih pr.1 hrest
          (runMembers_preserves_popInv hbs hu _ st hgen hinv)

theorem drawMatrix_length (src : RandomSource α) (t n m : ℕ) :
    (drawMatrix src t n m).length = n := by
  simp [drawMatrix]

theorem drawMatrix_rows (src : RandomSource α) (t n m : ℕ) :
    ∀ r ∈ drawMatrix src t n m, r.length = m := by
  intro r hr
  simp only [drawMatrix, List.mem_map] at hr
  obtain ⟨ii, _, hrw⟩ := hr
  rw [← hrw]
  simp

theorem scaleGo_length {bs : List (α × α)} :
    ∀ {m : List (List α)} {ii : ℕ} {m' : List (List α)},
      scaleGo bs m ii = .ok m' → m'.length = m.length := by
  intro m
  induction m with
  | nil =>
    intro ii m' h
    simp only [scaleGo, Except.ok.injEq] at h
    subst h; rfl
  | cons row rest ih =>
    intro ii m' h
    unfold scaleGo at h
    cases hb : bs.get? ii with
    | none => rw [hb] at h; exact absurd h (by simp)
    | some b =>
      rw [hb] at h
      simp only at h
      cases hrec : scaleGo bs rest (ii + 1) with
      | error e => rw [hrec] at h; exact absurd h (by simp)
      | ok rest' =>
        rw [hrec] at h
        simp only [Except.ok.injEq] at h
        subst h
        simpa using ih hrec

theorem scaleGo_rows {bs : List (α × α)} {m0 : ℕ} :
    ∀ {m : List (List α)} {ii : ℕ} {m' : List (List α)},
      scaleGo bs m ii = .ok m' → (∀ r ∈ m, r.length = m0) →
      ∀ r ∈ m', r.length = m0 := by
  intro m
  induction m with
  | nil =>
    intro ii m' h _
    simp only [scaleGo, Except.ok.injEq] at h
    subst h
    intro r hr
    exact absurd hr (by simp)
  | cons row rest ih =>
    intro ii m' h hrows
    unfold scaleGo at h
    cases hb : bs.get? ii with
    | none => rw [hb] at h; exact absurd h (by simp)
    | some b =>
      rw [hb] at h
      simp only at h
      cases hrec : scaleGo bs rest (ii + 1) with
      | error e => rw [hrec] at h; exact absurd h (by simp)
      | ok rest' =>
        rw [hrec] at h
        simp only [Except.ok.injEq] at h
        subst h
        intro r hr
        rcases List.mem_cons.mp hr with hr0 | hrr
        · subst hr0
          simpa using hrows row (List.mem_cons_self row rest)
        · exact ih hrec (fun r' hr' => hrows r' (List.mem_cons_of_mem row hr')) r hrr

theorem boundedMatrix_length {cfg : DEConfig α} {src : RandomSource α} {t : ℕ}
    {mat : List (List α)} (h : boundedMatrix cfg src t = .ok mat) :
    mat.length = cfg.nparam := by
  unfold boundedMatrix at h
  cases hb : cfg.bounds with
  | none =>
    rw [hb] at h
    simp only [Except.ok.injEq] at h
    subst h
    exact drawMatrix_length src t cfg.nparam cfg.npop
  | some bs =>
    rw [hb] at h
    cases bs with
    | nil =>
      simp only [Except.ok.injEq] at h
      subst h
      exact drawMatrix_length src t cfg.nparam cfg.npop
    | cons b0 brest =>
      simp only at h
      rw [scaleGo_length h]
      exact drawMatrix_length src t cfg.nparam cfg.npop

theorem boundedMatrix_rows {cfg : DEConfig α} {src : RandomSource α} {t : ℕ}
    {mat : List (List α)} (h : boundedMatrix cfg src t = .ok mat) :
    ∀ r ∈ mat, r.length = cfg.npop := by
  unfold boundedMatrix at h
  cases hb : cfg.bounds with
  | none =>
    rw [hb] at h
    simp only [Except.ok.injEq] at h
    subst h
    exact drawMatrix_rows src t cfg.nparam cfg.npop
  | some bs =>
    rw [hb] at h
    cases bs with
    | nil =>
      simp only [Except.ok.injEq] at h
      subst h
      exact drawMatrix_rows src t cfg.nparam cfg.npop
    | cons b0 brest =>
      simp only at h
      exact scaleGo_rows h (drawMatrix_rows src t cfg.nparam cfg.npop)

theorem set_zero_getD {r : List α} (x d : α) (h : r ≠ []) :
    (r.set 0 x).getD 0 d = x := by
  cases r with
  | nil => exact absurd rfl h
  | cons a l => rfl

theorem scale_val {b : α × α} {x : α} (hx0 : 0 ≤ x) (hx1 : x < 1)
    (hm : b.1 ≤ b.2) : b.1 ≤ b.1 + x * (b.2 - b.1) ∧ b.1 + x * (b.2 - b.1) ≤ b.2 := by
  have hd : 0 ≤ b.2 - b.1 := sub_nonneg.mpr hm
  constructor <;> nlinarith

theorem drawMatrix_val {src : RandomSource α} {t n m : ℕ} :
    ∀ row ∈ drawMatrix src t n m, ∀ x ∈ row, ∃ s, x = src.unif s := by
  intro row hrow x hx
  simp only [drawMatrix, List.mem_map] at hrow
  obtain ⟨ii, _, hrw⟩ := hrow
  rw [← hrw] at hx
  simp only [List.mem_map] at hx
  obtain ⟨jj, _, hxw⟩ := hx
  exact ⟨t + ii * m + jj, hxw.symm⟩

theorem scaleGo_get {bs : List (α × α)} :
    ∀ {m : List (List α)} {ii : ℕ} {m' : List (List α)},
      scaleGo bs m ii = .ok m' →
      ∀ k row', m'.get? k = some row' →
        ∃ b row, bs.get? (ii + k) = some b ∧ m.get? k = some row ∧
          row' = row.map (fun x => b.1 + x * (b.2 - b.1)) := by
  intro m
  induction m with
  | nil =>
    intro ii m' h k row' hk
    simp only [scaleGo, Except.ok.injEq] at h
    subst h
    simp at hk
  | cons row rest ih =>
    intro ii m' h k row' hk
    unfold scaleGo at h
    cases hb : bs.get? ii with
    | none => rw [hb] at h; exact absurd h (by simp)
    | some b =>
      rw [hb] at h
      simp only at h
      cases hrec : scaleGo bs rest (ii + 1) with
      | error e => rw [hrec] at h; exact absurd h (by simp)
      | ok rest' =>
        rw [hrec] at h
        simp only [Except.ok.injEq] at h
        subst h
        cases k with
        | zero =>
          simp only [List.get?_cons_zero, Option.some.injEq] at hk
          exact ⟨b, row, by simpa using hb, rfl, hk.symm⟩
        | succ k' =>
          simp only [List.get?_cons_succ] at hk
          obtain ⟨b', row0, hb', hr0, hrw⟩ := ih hrec k' row' hk
          refine ⟨b', row0, ?_, by simpa using hr0, hrw⟩
          rw [show ii + (k' + 1) = (ii + 1) + k' from by omega]
          exact hb'

/-- Row-wise bound property of the (rescaled) draw matrix: every entry of
row `k` lies in the `k`-th bound interval. -/
def rowBnd (bs : List (α × α)) (mat : List (List α)) : Prop :=
  ∀ k row, mat.get? k = some row →
    ∃ b, bs.get? k = some b ∧ ∀ x ∈ row, b.1 ≤ x ∧ x ≤ b.2

theorem boundedMatrix_rowBnd {cfg : DEConfig α} {src : RandomSource α} {t : ℕ}
    {mat : List (List α)} {bs : List (α × α)}
    (hb : cfg.bounds = some bs) (hbsne : bs ≠ [])
    (hmono : ∀ b ∈ bs, b.1 ≤ b.2)
    (hu : ∀ s, 0 ≤ src.unif s ∧ src.unif s < 1)
    (h : boundedMatrix cfg src t = .ok mat) :
    rowBnd bs mat := by
  unfold boundedMatrix at h
  rw [hb] at h
  obtain ⟨b0, brest, rfl⟩ : ∃ b0 brest, bs = b0 :: brest := by
    cases bs with
    | nil => exact absurd rfl hbsne
    | cons a l => exact ⟨a, l, rfl⟩
  simp only at h
  intro k row hk
  obtain ⟨b, row0, hbk, hr0, hrw⟩ := scaleGo_get h k row (by simpa using hk)
  simp only [Nat.zero_add] at hbk
  refine ⟨b, hbk, ?_⟩
  intro x hx
  rw [hrw] at hx
  simp only [List.mem_map] at hx
  obtain ⟨x0, hx0, rfl⟩ := hx
  obtain ⟨s, rfl⟩ := drawMatrix_val row0 (List.get?_mem hr0) x0 hx0
  exact scale_val (hu s).1 (hu s).2 (hmono b (List.get?_mem hbk))

/-- The generated population's members all satisfy the configured bounds,
provided the (truthy) bounds are per-parameter with `low ≤ high`, any guess
is itself within bounds, and the uniform stream stays in `[0,1)`; stated for
the `nparam = 4` shape the solver supports. -/
theorem popgen_members_inB {cfg : DEConfig α} {src : RandomSource α}
    {pop0 : List (List α)} {t t' : ℕ} {bs : List (α × α)}
    (hb : cfg.bounds = some bs) (hnp : cfg.nparam = 4) (hbs : bs.length = 4)
    (hmono : ∀ b ∈ bs, b.1 ≤ b.2)
    (hguess : cfg.guess = none ∨ ∃ gv, cfg.guess = some gv ∧ vecInB bs gv = true)
    (hu : ∀ s, 0 ≤ src.unif s ∧ src.unif s < 1)
    (hpg : population_generator cfg src t = .ok (pop0, t')) :
    ∀ m ∈ pop0, vecInB bs m = true := by
  unfold population_generator at hpg
  cases hbm : boundedMatrix cfg src t with
  | error e => rw [hbm] at hpg; exact absurd hpg (by simp)
  | ok mat =>
    rw [hbm] at hpg
    simp only at hpg
    cases ha : applyGuess cfg.guess mat with
    | error e => rw [ha] at hpg; exact absurd hpg (by simp)
    | ok mat2 =>
      rw [ha] at hpg
      simp only [Except.ok.injEq, Prod.mk.injEq] at hpg
      obtain ⟨hpop, _⟩ := hpg
      subst hpop
      have hmatlen : mat.length = 4 := by rw [boundedMatrix_length hbm, hnp]
      have hrows : ∀ r ∈ mat, r.length = cfg.npop := boundedMatrix_rows hbm
      have hbsne : bs ≠ [] := by
        intro hc
        rw [hc] at hbs
        simp at hbs
      have hrb : rowBnd bs mat := boundedMatrix_rowBnd hb hbsne hmono hu hbm
      have hmain : mat2.length = 4 ∧ (∀ r ∈ mat2, r.length = cfg.npop) ∧
          rowBnd bs mat2 := by
        rcases hguess with hg | ⟨gv, hg, hgv⟩
        · rw [hg] at ha
          simp only [applyGuess, Except.ok.injEq] at ha
          subst ha
          exact ⟨hmatlen, hrows, hrb⟩
        · rw [hg] at ha
          have hgvlen : gv.length = 4 := by rw [vecInB_length hgv, hbs]
          obtain ⟨g0, gs, rfl⟩ : ∃ g0 gs, gv = g0 :: gs := by
            cases gv with
            | nil => simp at hgvlen
            | cons a l => exact ⟨a, l, rfl⟩
          have hgm : (g0 :: gs).length = mat.length := by rw [hgvlen, hmatlen]
          rw [applyGuess, if_pos hgm] at ha
          simp only [Except.ok.injEq] at ha
          subst ha
          refine ⟨by simp [List.length_zipWith, hgvlen, hmatlen], ?_, ?_⟩
          · intro r hr
            obtain ⟨k, hk⟩ := List.mem_iff_getElem?.mp hr
            rw [List.getElem?_zipWith] at hk
            cases hgk : (g0 :: gs)[k]? with
            | none => rw [hgk] at hk; simp at hk
            | some gk =>
              cases hmk : mat[k]? with
              | none => rw [hgk, hmk] at hk; simp at hk
              | some row =>
                rw [hgk, hmk] at hk
                simp only [Option.some.injEq] at hk
                subst hk
                rw [List.length_set]
                exact hrows row (List.getElem?_mem hmk)
          · intro k row2 hk2
            rw [List.get?_eq_getElem?, List.getElem?_zipWith] at hk2
            cases hgk : (g0 :: gs)[k]? with
            | none => rw [hgk] at hk2; simp at hk2
            | some gk =>
              cases hmk : mat[k]? with
              | none => rw [hgk, hmk] at hk2; simp at hk2
              | some row =>
                rw [hgk, hmk] at hk2
                simp only [Option.some.injEq] at hk2
                subst hk2
                obtain ⟨b, hbk, hvals⟩ := hrb k row (by rw [List.get?_eq_getElem?]; exact hmk)
                refine ⟨b, hbk, ?_⟩
                intro x hx
                rcases List.mem_or_eq_of_mem_set hx with hx' | hx'
                · exact hvals x hx'
                · have hin := vecInB_get hgv k b hbk
                  have hgd : (g0 :: gs).getD k 0 = gk := by
                    rw [List.getD_eq_getElem?_getD, hgk]
                    rfl
                  rw [hgd] at hin
                  rw [hx']
                  exact hin
      obtain ⟨hlen2, hrows2, hrb2⟩ := hmain
      intro m hm
      unfold matTranspose at hm
      simp only [List.mem_map, List.mem_range] at hm
      obtain ⟨jj, hjj, rfl⟩ := hm
      obtain ⟨r2, mrest2, rfl⟩ : ∃ r2 mrest2, mat2 = r2 :: mrest2 := by
        cases mat2 with
        | nil => simp at hlen2
        | cons a l => exact ⟨a, l, rfl⟩
      have hr2len : r2.length = cfg.npop :=
        hrows2 r2 (List.mem_cons_self r2 mrest2)
      have hjjnpop : jj < cfg.npop := by
        simp only [List.headD_eq_head?_getD, List.head?_cons, Option.getD_some] at hjj
        rw [← hr2len]
        exact hjj
      refine vecInB_of_forall ?_ ?_
      · simp only [List.length_map]
        rw [hlen2, hbs]
      · intro k b hbk
        have hklt : k < (r2 :: mrest2).length := by
          rw [hlen2, ← hbs]
          exact (List.get?_eq_some.mp hbk).1
        have hrowk : ((r2 :: mrest2).map (fun row => row.getD jj 0)).getD k 0
            = ((r2 :: mrest2)[k]).getD jj 0 := by
          rw [List.getD_eq_getElem?_getD, List.getElem?_map,
            List.getElem?_eq_getElem hklt]
          rfl
        rw [hrowk]
        have hrowmem : (r2 :: mrest2)[k] ∈ (r2 :: mrest2) := List.getElem_mem hklt
        have hrowlen : ((r2 :: mrest2)[k]).length = cfg.npop := hrows2 _ hrowmem
        have hjjrow : jj < ((r2 :: mrest2)[k]).length := by rw [hrowlen]; exact hjjnpop
        obtain ⟨b', hbk', hvals⟩ := hrb2 k _ (by
          rw [List.get?_eq_getElem?]
          exact List.getElem?_eq_getElem hklt)
        rw [hbk'] at hbk
        injection hbk with hbb
        subst hbb
        refine hvals _ ?_
        rw [List.getD_eq_getElem?_getD, List.getElem?_eq_getElem hjjrow]
        exact List.getElem_mem hjjrow

/-- A successful `least_error_idx` forces a nonempty population and an
in-range argmin index. -/
theorem least_error_idx_lt {f : List α → α} {pop : List (List α)} {li : ℕ} {le : α}
    (h : least_error_idx f pop = .ok (li, le)) : pop ≠ [] ∧ li < pop.length := by
  unfold least_error_idx at h
  cases hm : pop.map f with
  | nil =>
    rw [hm] at h
    exact absurd h (by simp)
  | cons e es =>
    rw [hm] at h
    simp only [Except.ok.injEq] at h
    have hli : (argminGo es 1 0 e).1 = li := by rw [h]
    have hlen : pop.length = es.length + 1 := by
      have := congrArg List.length hm
      simpa using this
    have hgo : ∀ (l : List α) (i bi : ℕ) (bv : α), bi < i →
        (argminGo l i bi bv).1 < i + l.length := by
      intro l
      induction l with
      | nil => intro i bi bv hbi; simpa using hbi
      | cons x xs ihx =>
        intro i bi bv hbi
        unfold argminGo
        by_cases hx : x < bv
        · rw [if_pos hx]
          have := ihx (i + 1) i x (Nat.lt_succ_self i)
          simpa [Nat.add_comm, Nat.add_left_comm] using this
        · rw [if_neg hx]
          have := ihx (i + 1) bi bv (Nat.lt_succ_of_lt hbi)
          simpa [Nat.add_comm, Nat.add_left_comm] using this
    constructor
    · intro hc
      rw [hc] at hm
      simp at hm
    · rw [← hli, hlen]
      have := hgo es 1 0 e Nat.zero_lt_one
      omega

/-! ## Concrete inputs used by witnesses and counterexamples (over `ℚ`) -/

/-- A random source whose scalar draws are all `1/2` and whose choice pairs
normalise to `(0, 1)`. -/
def srcHalf : RandomSource ℚ := ⟨fun _ => 1/2, fun _ => (0, 0)⟩

/-- A random source alternating `3/4` (even ticks) and `1/4` (odd ticks),
whose choice pairs normalise to `(1, 0)`. -/
def srcAlt : RandomSource ℚ := ⟨fun t => if t % 2 = 0 then 3/4 else 1/4, fun _ => (1, 0)⟩

/-- The constant-zero objective evaluator (the spec's "evaluator always
returns 0" scenario). -/
def fzero : List ℚ → ℚ := fun _ => 0

/-- An evaluator whose cost is the first coordinate of the candidate. -/
def fHead : List ℚ → ℚ := fun v => v.getD 0 0

/-- Four unit bounds `(0, 1)`. -/
def bs01 : List (ℚ × ℚ) := [(0, 1), (0, 1), (0, 1), (0, 1)]

/-- Four wide bounds `(-100, 100)`. -/
def bsWide : List (ℚ × ℚ) := [(-100, 100), (-100, 100), (-100, 100), (-100, 100)]

/-! ## Claim C4 -/

/-- Claim C4: for every run (the evaluator is a Lean function, hence pure),
the improvement stream is emitted in strictly decreasing cost order, each
emitted cost lies strictly below the initial best cost `le`, and the final
best cost equals the last emitted cost (so the best-fit cost is monotonically
non-increasing across the whole run). -/
theorem solver_improvement_stream_strictly_decreasing
    {cfg : DEConfig α} {f : List α → α} {gkmut : α} {gbounds : List (α × α)}
    {src : RandomSource α} {pop0 : List (List α)} {t0 li : ℕ} {le : α}
    {stf : DEState α} {emits : List (List α × α)}
    (hpg : population_generator cfg src 0 = .ok (pop0, t0))
    (hle : least_error_idx f pop0 = .ok (li, le))
    (hs : diff_evolution_solver cfg f gkmut gbounds src = .ok (stf, emits)) :
    List.Chain' (fun p q : List α × α => q.2 < p.2) emits ∧
    costsDec le (emits.map Prod.snd) ∧
    stf.lst_err = (emits.map Prod.snd).getLastD le := by
  unfold diff_evolution_solver at hs
  rw [hpg] at hs
  simp only at hs
  rw [hle] at hs
  simp only at hs
  obtain ⟨h1, h2⟩ := runGens_costs _ _ hs
  exact ⟨chain_of_costsDec h1, h1, h2⟩

/-- Witness for C4 at a concrete run with one emitted improvement. -/
theorem solver_improvement_stream_strictly_decreasing_witness :
    List.Chain' (fun p q : List ℚ × ℚ => q.2 < p.2) [([0, 0, 0, 0], 0)] ∧
    costsDec (1/4 : ℚ) ([([0, 0, 0, 0], (0 : ℚ))].map Prod.snd) ∧
    (DEState.mk [[0, 0, 0, 0], [1/8, 1/8, 1/8, 1/8]] [0, 0, 0, 0] (0 : ℚ) 14 2).lst_err
      = ([([0, 0, 0, 0], (0 : ℚ))].map Prod.snd).getLastD (1/4) := by
  have hpg : population_generator (DEConfig.mk 0 1 4 2 1 none none) srcAlt 0
      = .ok ([[3/4, 3/4, 3/4, 3/4], [1/4, 1/4, 1/4, 1/4]], 8) := by
    norm_num [population_generator, boundedMatrix, drawMatrix, applyGuess,
      matTranspose, srcAlt, List.range_succ]
  have hle : least_error_idx fHead [[3/4, 3/4, 3/4, 3/4], [(1:ℚ)/4, 1/4, 1/4, 1/4]]
      = .ok (1, 1/4) := by
    norm_num [least_error_idx, argminGo, fHead]
  have h3 : innerStep (DEConfig.mk 0 1 4 2 1 none none) fHead (1/2) bsWide srcAlt
      ⟨[[3/4, 3/4, 3/4, 3/4], [1/4, 1/4, 1/4, 1/4]], [1/4, 1/4, 1/4, 1/4], 1/4, 8, 0⟩ 0
      = .ok (⟨[[0, 0, 0, 0], [1/4, 1/4, 1/4, 1/4]], [0, 0, 0, 0], 0, 11, 1⟩,
          some ([0, 0, 0, 0], 0)) := by
    norm_num [innerStep, npChoice2, crossMask, numpyWhere, vAdd, vSub, sMul, bGet, bGetB,
      repairGo, colMin, colMax, column, listMin, listMax, srcAlt, fHead, bsWide,
      List.range_succ]
  have h4 : innerStep (DEConfig.mk 0 1 4 2 1 none none) fHead (1/2) bsWide srcAlt
      ⟨[[0, 0, 0, 0], [1/4, 1/4, 1/4, 1/4]], [0, 0, 0, 0], 0, 11, 1⟩ 1
      = .ok (⟨[[0, 0, 0, 0], [1/8, 1/8, 1/8, 1/8]], [0, 0, 0, 0], 0, 14, 2⟩, none) := by
    norm_num [innerStep, npChoice2, crossMask, numpyWhere, vAdd, vSub, sMul, bGet, bGetB,
      repairGo, colMin, colMax, column, listMin, listMax, srcAlt, fHead, bsWide,
      List.range_succ]
  have hr : List.range (DEConfig.mk (0:ℚ) 1 4 2 1 none none).npop = [0, 1] := rfl
  have hn : (DEConfig.mk (0:ℚ) 1 4 2 1 none none).niter = 1 := rfl
  have hs : diff_evolution_solver (DEConfig.mk 0 1 4 2 1 none none) fHead (1/2) bsWide srcAlt
      = .ok (⟨[[0, 0, 0, 0], [1/8, 1/8, 1/8, 1/8]], [0, 0, 0, 0], 0, 14, 2⟩,
          [([0, 0, 0, 0], 0)]) := by
    simp only [diff_evolution_solver, hpg, hle, hn, hr, runGens, runMembers,
      List.getD, List.getElem?_cons_zero, List.getElem?_cons_succ, List.get?_cons_zero,
      List.get?_cons_succ, Option.getD_some, h3, h4, Option.toList,
      List.append_nil, List.nil_append, List.singleton_append]
  exact solver_improvement_stream_strictly_decreasing hpg hle hs

/-! ## Claim C7 -/

/-- Claim C7 (amended): in the bound-repair step — whose out-of-range test
uses the interval list the solver body reads (the module-level `bounds`,
parameter `gb`) — a trial value inside its interval is kept verbatim, and a
trial value outside it is replaced by `colMin + u * (colMax - colMin)` for a
fresh uniform draw `u`, a value lying in the live population's empirical
spread `[pop[:,j].min(), pop[:,j].max()]`, not drawn from the bound interval
itself. -/
theorem repair_draws_from_empirical_range
    {gb : List (α × α)} {pop : List (List α)} {src : RandomSource α}
    {vs vs' : List α} {j tu tu' : ℕ}
    (h : repairGo gb pop src vs j tu = .ok (vs', tu'))
    (hu : ∀ s, 0 ≤ src.unif s ∧ src.unif s < 1)
    (hne : pop ≠ []) :
    vs'.length = vs.length ∧
    ∀ k b, gb.get? (j + k) = some b → k < vs.length →
      ((b.1 ≤ vs.getD k 0 ∧ vs.getD k 0 ≤ b.2) → vs'.getD k 0 = vs.getD k 0) ∧
      (¬ (b.1 ≤ vs.getD k 0 ∧ vs.getD k 0 ≤ b.2) →
        (∃ s, vs'.getD k 0
          = colMin pop (j + k) + src.unif s * (colMax pop (j + k) - colMin pop (j + k))) ∧
        colMin pop (j + k) ≤ vs'.getD k 0 ∧ vs'.getD k 0 ≤ colMax pop (j + k)) := by
  obtain ⟨hlen, hchar⟩ := repairGo_spec h
  refine ⟨hlen, fun k b hk hklt => ?_⟩
  obtain ⟨hkeep, hrep⟩ := hchar k b hk hklt
  refine ⟨hkeep, fun hout => ?_⟩
  obtain ⟨s, hs⟩ := hrep hout
  obtain ⟨h1, h2⟩ := repair_value_in_empirical_range hne (j + k) (hu s).1 (hu s).2
  exact ⟨⟨s, hs⟩, by rw [hs]; exact h1, by rw [hs]; exact h2⟩

/-- Witness for C7 at a concrete repair: value `3` outside `(0, 1)` is
replaced by `6 = 5 + (1/2) * (7 - 5)`, inside the empirical column range
`[5, 7]` and far outside the bound interval. -/
theorem repair_draws_from_empirical_range_witness :
    ([6] : List ℚ).length = ([3] : List ℚ).length ∧
    ∀ k b, ([((0:ℚ), 1)]).get? (0 + k) = some b → k < ([3] : List ℚ).length →
      ((b.1 ≤ ([3] : List ℚ).getD k 0 ∧ ([3] : List ℚ).getD k 0 ≤ b.2) →
        ([6] : List ℚ).getD k 0 = ([3] : List ℚ).getD k 0) ∧
      (¬ (b.1 ≤ ([3] : List ℚ).getD k 0 ∧ ([3] : List ℚ).getD k 0 ≤ b.2) →
        (∃ s, ([6] : List ℚ).getD k 0
          = colMin [[5], [7]] (0 + k)
            + srcHalf.unif s * (colMax [[5], [7]] (0 + k) - colMin [[5], [7]] (0 + k))) ∧
        colMin [[5], [7]] (0 + k) ≤ ([6] : List ℚ).getD k 0 ∧
        ([6] : List ℚ).getD k 0 ≤ colMax [[5], [7]] (0 + k)) :=
  @repair_draws_from_empirical_range ℚ _ [((0:ℚ), 1)] [[5], [7]] srcHalf [3] [6] 0 0 1
    (by norm_num [repairGo, colMin, colMax, column, listMin, listMax, srcHalf])
    (fun s => by norm_num [srcHalf])
    (by simp)

/-- Counterexample for C7 as stated: with configured bounds `(0,1)` but
module-level bounds `(0,10)`, the trial value `4` falls outside its
configured interval yet is *not* replaced — it survives repair, selection and
the global update verbatim (the emitted candidate is `[4,4,4,4]`), and it is
not a draw from the empirical column range `[5, 6]` either. -/
theorem repair_ignores_configured_bounds_counterexample :
    innerStep (DEConfig.mk (0:ℚ) 1 4 2 1 (some bs01) none) fHead 1
        [(0, 10), (0, 10), (0, 10), (0, 10)] srcHalf
        ⟨[[5, 5, 5, 5], [6, 6, 6, 6]], [5, 5, 5, 5], 5, 0, 0⟩ 0
      = .ok (⟨[[4, 4, 4, 4], [6, 6, 6, 6]], [4, 4, 4, 4], 4, 3, 1⟩, some ([4, 4, 4, 4], 4)) ∧
    (DEConfig.mk (0:ℚ) 1 4 2 1 (some bs01) none).bounds = some bs01 ∧
    bs01.get? 0 = some (0, 1) ∧
    ¬ ((0:ℚ) ≤ 4 ∧ (4:ℚ) ≤ 1) ∧
    colMin [[(5:ℚ), 5, 5, 5], [6, 6, 6, 6]] 0 = 5 ∧
    colMax [[(5:ℚ), 5, 5, 5], [6, 6, 6, 6]] 0 = 6 ∧
    ¬ ((5:ℚ) ≤ 4) := by
  refine ⟨?_, rfl, rfl, by norm_num, ?_, ?_, by norm_num⟩
  · norm_num [innerStep, npChoice2, crossMask, numpyWhere, vAdd, vSub, sMul, bGet, bGetB,
      repairGo, colMin, colMax, column, listMin, listMax, srcHalf, fHead,
      List.range_succ]
  · norm_num [colMin, column, listMin]
  · norm_num [colMax, column, listMax]

/-! ## Claim C6 -/

/-- Claim C6 (refuting theorem): the solver's output is entirely independent
of the mutation factor the engine was constructed with — changing the stored
`kmut` field changes nothing, because the mutation line reads the
module-level variable `kmut` (`gkmut`), not `self.kmut`.  Hence the trial is
`bestfit + gkmut * (pop[r1] - pop[r2])` with the module-level factor, not the
constructed one. -/
theorem innerStep_ignores_stored_kmut (k k' kc : α) (np npp ni : ℕ)
    (b : Option (List (α × α))) (g : Option (List α)) (f : List α → α)
    (gkmut : α) (gbounds : List (α × α)) (src : RandomSource α)
    (st : DEState α) (i : ℕ) :
    innerStep ⟨k', kc, np, npp, ni, b, g⟩ f gkmut gbounds src st i
      = innerStep ⟨k, kc, np, npp, ni, b, g⟩ f gkmut gbounds src st i := rfl

theorem runMembers_ignores_stored_kmut (k k' kc : α) (np npp ni : ℕ)
    (b : Option (List (α × α))) (g : Option (List α)) (f : List α → α)
    (gkmut : α) (gbounds : List (α × α)) (src : RandomSource α) :
    ∀ (idxs : List ℕ) (st : DEState α),
      runMembers ⟨k', kc, np, npp, ni, b, g⟩ f gkmut gbounds src idxs st
        = runMembers ⟨k, kc, np, npp, ni, b, g⟩ f gkmut gbounds src idxs st := by
  intro idxs
  induction idxs with
  | nil => intro st; rfl
  | cons i rest ih =>
    intro st
    unfold runMembers
    rw [innerStep_ignores_stored_kmut k k']
    simp only [ih]

theorem runGens_ignores_stored_kmut (k k' kc : α) (np npp ni : ℕ)
    (b : Option (List (α × α))) (g : Option (List α)) (f : List α → α)
    (gkmut : α) (gbounds : List (α × α)) (src : RandomSource α) :
    ∀ (n : ℕ) (st : DEState α),
      runGens ⟨k', kc, np, npp, ni, b, g⟩ f gkmut gbounds src n st
        = runGens ⟨k, kc, np, npp, ni, b, g⟩ f gkmut gbounds src n st := by
  intro n
  induction n with
  | zero => intro st; rfl
  | succ m ih =>
    intro st
    unfold runGens
    rw [runMembers_ignores_stored_kmut k k']
    simp only [ih]

/-- Claim C6 (refuting theorem): the solver's output is entirely independent
of the mutation factor the engine was constructed with — changing only the
stored `kmut` field changes nothing, because the mutation line reads the
module-level variable `kmut` (parameter `gkmut`), not `self.kmut`.  Hence
the trial is `bestfit + gkmut * (pop[r1] - pop[r2])` with the module-level
factor, not the constructed one (the two distinct random indices `r1, r2`
are produced by `npChoice2`). -/
theorem solver_ignores_constructed_kmut (k k' kc : α) (np npp ni : ℕ)
    (b : Option (List (α × α))) (g : Option (List α)) (f : List α → α)
    (gkmut : α) (gbounds : List (α × α)) (src : RandomSource α) :
    diff_evolution_solver ⟨k', kc, np, npp, ni, b, g⟩ f gkmut gbounds src
      = diff_evolution_solver ⟨k, kc, np, npp, ni, b, g⟩ f gkmut gbounds src := by
  unfold diff_evolution_solver
  have hp : population_generator (⟨k', kc, np, npp, ni, b, g⟩ : DEConfig α) src 0
      = population_generator (⟨k, kc, np, npp, ni, b, g⟩ : DEConfig α) src 0 := rfl
  rw [hp]
  simp only [runGens_ignores_stored_kmut k k']

/-! ## Claim C8 -/

/-- Claim C8: with one fixed seed the `np.random` stream is a fixed function
of the seed (`np.random.seed(seed)` in `__init__`); the embedding makes the
stream an explicit `RandomSource`, so two runs with identical configuration
and identical seed-derived stream produce identical population
initialization, an identical solver trace (hence identical trial vectors
generation by generation), and identical final results. -/
theorem solver_deterministic_for_fixed_seed
    (cfg1 cfg2 : DEConfig α) (f : List α → α) (gkmut : α)
    (gbounds : List (α × α)) (src1 src2 : RandomSource α)
    (hcfg : cfg1 = cfg2) (hsrc : src1 = src2) :
    population_generator cfg1 src1 0 = population_generator cfg2 src2 0 ∧
    diff_evolution_solver cfg1 f gkmut gbounds src1
      = diff_evolution_solver cfg2 f gkmut gbounds src2 ∧
    result cfg1 f gkmut gbounds src1 = result cfg2 f gkmut gbounds src2 := by
  subst hcfg; subst hsrc
  exact ⟨rfl, rfl, rfl⟩

/-- Witness for C8 at a concrete configuration and stream. -/
theorem solver_deterministic_for_fixed_seed_witness :
    population_generator (DEConfig.mk (0:ℚ) 1 4 2 1 none none) srcAlt 0
      = population_generator (DEConfig.mk (0:ℚ) 1 4 2 1 none none) srcAlt 0 ∧
    diff_evolution_solver (DEConfig.mk (0:ℚ) 1 4 2 1 none none) fHead (1/2) bsWide srcAlt
      = diff_evolution_solver (DEConfig.mk (0:ℚ) 1 4 2 1 none none) fHead (1/2) bsWide srcAlt ∧
    result (DEConfig.mk (0:ℚ) 1 4 2 1 none none) fHead (1/2) bsWide srcAlt
      = result (DEConfig.mk (0:ℚ) 1 4 2 1 none none) fHead (1/2) bsWide srcAlt :=
  solver_deterministic_for_fixed_seed _ _ fHead (1/2) bsWide srcAlt srcAlt rfl rfl

/-! ## Claim C3 -/

/-- Counterexample for C3: `__init__` accepts a configuration violating every
documented restriction at once — `kmut = 2 ∉ (0,1]`, `kcross = 3/2 ∉ [0,1]`,
`nparam = 0`, `npop = 0`, and a bounds entry with `low > high` — and returns
it unrejected, so construction does not fail on invalid configurations. -/
theorem construction_accepts_invalid_configuration :
    DifferentialEvolution.init (2 : ℚ) (3/2) 0 0 5 (some [(1, 0)]) none
      = .ok ⟨2, 3/2, 0, 0, 5, some [(1, 0)], none⟩ := rfl

/-- Claim C3 (amended): engine construction performs no validation at all —
for every argument list, valid or not, `__init__` succeeds and stores the
configuration verbatim; configuration errors are at best discovered mid-run. -/
theorem construction_never_fails (kmut kcross : α) (nparam npop niter : ℕ)
    (bounds : Option (List (α × α))) (guess : Option (List α)) :
    DifferentialEvolution.init kmut kcross nparam npop niter bounds guess
      = .ok ⟨kmut, kcross, nparam, npop, niter, bounds, guess⟩ := rfl

/-! ## Claim C5 -/

/-- Claim C5 (amended): for a bounded run in the only shape the solver's
fixed-size crossover supports (`nparam = 4`, bounds list of length 4 with
`low ≤ high`), with the module-level repair bounds equal to the configured
bounds, with uniform draws in `[0,1)`, and with any supplied guess itself
within the bounds, every population member retained at the end of each
generation (any generation count `g`) and the best-fit vector satisfy all
configured bounds pointwise. -/
theorem population_and_bestfit_within_bounds_amended
    {cfg : DEConfig α} {f : List α → α} {gkmut : α} {bs : List (α × α)}
    {src : RandomSource α} {pop0 : List (List α)} {t0 li : ℕ} {le : α}
    {g : ℕ} {st : DEState α} {es : List (List α × α)}
    (hb : cfg.bounds = some bs) (hnp : cfg.nparam = 4) (hbs : bs.length = 4)
    (hmono : ∀ b ∈ bs, b.1 ≤ b.2)
    (hguess : cfg.guess = none ∨ ∃ gv, cfg.guess = some gv ∧ vecInB bs gv = true)
    (hu : ∀ s, 0 ≤ src.unif s ∧ src.unif s < 1)
    (hpg : population_generator cfg src 0 = .ok (pop0, t0))
    (hle : least_error_idx f pop0 = .ok (li, le))
    (hrun : runGens cfg f gkmut bs src g ⟨pop0, pop0.getD li [], le, t0, 0⟩
      = .ok (st, es)) :
    (∀ m ∈ st.pop, vecInB bs m = true) ∧ vecInB bs st.bestfit = true := by
  have hmem := popgen_members_inB hb hnp hbs hmono hguess hu hpg
  obtain ⟨hne, hlt⟩ := least_error_idx_lt hle
  have hbest : vecInB bs (pop0.getD li []) = true := by
    refine hmem _ ?_
    rw [List.getD_eq_getElem?_getD, List.getElem?_eq_getElem hlt]
    exact List.getElem_mem hlt
  obtain ⟨h1, _, h2⟩ :=
    runGens_preserves_popInv hbs hu g _ hrun ⟨hmem, hne, hbest⟩
  exact ⟨h1, h2⟩

/-- Witness for C5 (amended) at a concrete bounded, guessless run of one
generation. -/
theorem population_and_bestfit_within_bounds_amended_witness :
    (∀ m ∈ ([[1/2, 1/2, 1/2, 1/2], [1/2, 1/2, 1/2, 1/2]] : List (List ℚ)),
      vecInB bs01 m = true) ∧
    vecInB bs01 ([1/2, 1/2, 1/2, 1/2] : List ℚ) = true := by
  have hpg : population_generator (DEConfig.mk (0:ℚ) (1/2) 4 2 1 (some bs01) none)
      srcHalf 0 = .ok ([[1/2, 1/2, 1/2, 1/2], [1/2, 1/2, 1/2, 1/2]], 8) := by
    norm_num [population_generator, boundedMatrix, drawMatrix, scaleGo, applyGuess,
      matTranspose, srcHalf, bs01, List.range_succ]
  have hle : least_error_idx fzero
      ([[1/2, 1/2, 1/2, 1/2], [1/2, 1/2, 1/2, 1/2]] : List (List ℚ)) = .ok (0, 0) := by
    norm_num [least_error_idx, argminGo, fzero]
  have h3 : innerStep (DEConfig.mk (0:ℚ) (1/2) 4 2 1 (some bs01) none) fzero (1/5) bs01
      srcHalf ⟨[[1/2, 1/2, 1/2, 1/2], [1/2, 1/2, 1/2, 1/2]], [1/2, 1/2, 1/2, 1/2], 0, 8, 0⟩ 0
      = .ok (⟨[[1/2, 1/2, 1/2, 1/2], [1/2, 1/2, 1/2, 1/2]],
          [1/2, 1/2, 1/2, 1/2], 0, 11, 1⟩, none) := by
    norm_num [innerStep, npChoice2, crossMask, numpyWhere, vAdd, vSub, sMul, bGet, bGetB,
      repairGo, colMin, colMax, column, listMin, listMax, srcHalf, bs01, fzero,
      List.range_succ]
  have h4 : innerStep (DEConfig.mk (0:ℚ) (1/2) 4 2 1 (some bs01) none) fzero (1/5) bs01
      srcHalf ⟨[[1/2, 1/2, 1/2, 1/2], [1/2, 1/2, 1/2, 1/2]], [1/2, 1/2, 1/2, 1/2], 0, 11, 1⟩ 1
      = .ok (⟨[[1/2, 1/2, 1/2, 1/2], [1/2, 1/2, 1/2, 1/2]],
          [1/2, 1/2, 1/2, 1/2], 0, 14, 2⟩, none) := by
    norm_num [innerStep, npChoice2, crossMask, numpyWhere, vAdd, vSub, sMul, bGet, bGetB,
      repairGo, colMin, colMax, column, listMin, listMax, srcHalf, bs01, fzero,
      List.range_succ]
  have hr : List.range (DEConfig.mk (0:ℚ) (1/2) 4 2 1 (some bs01) none).npop = [0, 1] := rfl
  have hrun : runGens (DEConfig.mk (0:ℚ) (1/2) 4 2 1 (some bs01) none) fzero (1/5) bs01
      srcHalf 1 ⟨[[1/2, 1/2, 1/2, 1/2], [1/2, 1/2, 1/2, 1/2]], [1/2, 1/2, 1/2, 1/2], 0, 8, 0⟩
      = .ok (⟨[[1/2, 1/2, 1/2, 1/2], [1/2, 1/2, 1/2, 1/2]],
          [1/2, 1/2, 1/2, 1/2], 0, 14, 2⟩, []) := by
    simp only [runGens, hr, runMembers, h3, h4, Option.toList,
      List.append_nil, List.nil_append]
  exact @population_and_bestfit_within_bounds_amended ℚ _
    (DEConfig.mk (0:ℚ) (1/2) 4 2 1 (some bs01) none) fzero (1/5) bs01 srcHalf
    [[1/2, 1/2, 1/2, 1/2], [1/2, 1/2, 1/2, 1/2]] 8 0 0 1
    ⟨[[1/2, 1/2, 1/2, 1/2], [1/2, 1/2, 1/2, 1/2]], [1/2, 1/2, 1/2, 1/2], 0, 14, 2⟩ []
    rfl rfl rfl (by norm_num [bs01]) (Or.inl rfl)
    (fun s => by norm_num [srcHalf]) hpg hle hrun

/-- Counterexample for C5 as stated: with bounds `(0,1)` on every parameter
supplied at construction, an out-of-bounds guess `[2,2,2,2]` survives
initialization, is never replaced during the one configured generation (the
constant-zero evaluator makes the strict selection never fire), and is still
retained in the final population, violating the bounds. -/
theorem out_of_bounds_guess_retained_counterexample :
    (DEConfig.mk (0:ℚ) (1/2) 4 2 1 (some bs01) (some [2, 2, 2, 2])).bounds = some bs01 ∧
    Except.map (fun p => p.1.pop)
        (diff_evolution_solver
          (DEConfig.mk (0:ℚ) (1/2) 4 2 1 (some bs01) (some [2, 2, 2, 2]))
          fzero (1/5) bs01 srcHalf)
      = .ok [[2, 2, 2, 2], [1/2, 1/2, 1/2, 1/2]] ∧
    vecInB bs01 ([2, 2, 2, 2] : List ℚ) = false := by
  refine ⟨rfl, ?_, by decide⟩
  have hpg : population_generator
      (DEConfig.mk (0:ℚ) (1/2) 4 2 1 (some bs01) (some [2, 2, 2, 2])) srcHalf 0
      = .ok ([[2, 2, 2, 2], [1/2, 1/2, 1/2, 1/2]], 8) := by
    norm_num [population_generator, boundedMatrix, drawMatrix, scaleGo, applyGuess,
      matTranspose, srcHalf, bs01, List.range_succ]
  have hle : least_error_idx fzero
      ([[2, 2, 2, 2], [1/2, 1/2, 1/2, 1/2]] : List (List ℚ)) = .ok (0, 0) := by
    norm_num [least_error_idx, argminGo, fzero]
  have h3 : innerStep (DEConfig.mk (0:ℚ) (1/2) 4 2 1 (some bs01) (some [2, 2, 2, 2]))
      fzero (1/5) bs01 srcHalf
      ⟨[[2, 2, 2, 2], [1/2, 1/2, 1/2, 1/2]], [2, 2, 2, 2], 0, 8, 0⟩ 0
      = .ok (⟨[[2, 2, 2, 2], [1/2, 1/2, 1/2, 1/2]], [2, 2, 2, 2], 0, 15, 1⟩, none) := by
    norm_num [innerStep, npChoice2, crossMask, numpyWhere, vAdd, vSub, sMul, bGet, bGetB,
      repairGo, colMin, colMax, column, listMin, listMax, srcHalf, bs01, fzero,
      List.range_succ]
  have h4 : innerStep (DEConfig.mk (0:ℚ) (1/2) 4 2 1 (some bs01) (some [2, 2, 2, 2]))
      fzero (1/5) bs01 srcHalf
      ⟨[[2, 2, 2, 2], [1/2, 1/2, 1/2, 1/2]], [2, 2, 2, 2], 0, 15, 1⟩ 1
      = .ok (⟨[[2, 2, 2, 2], [1/2, 1/2, 1/2, 1/2]], [2, 2, 2, 2], 0, 22, 2⟩, none) := by
    norm_num [innerStep, npChoice2, crossMask, numpyWhere, vAdd, vSub, sMul, bGet, bGetB,
      repairGo, colMin, colMax, column, listMin, listMax, srcHalf, bs01, fzero,
      List.range_succ]
  have hn : (DEConfig.mk (0:ℚ) (1/2) 4 2 1 (some bs01) (some [2, 2, 2, 2])).niter = 1 := rfl
  have hr : List.range
      (DEConfig.mk (0:ℚ) (1/2) 4 2 1 (some bs01) (some [2, 2, 2, 2])).npop = [0, 1] := rfl
  simp only [diff_evolution_solver, hpg, hle, hn, hr, runGens, runMembers,
    List.getD, List.getElem?_cons_zero, List.getElem?_cons_succ, List.get?_cons_zero,
    List.get?_cons_succ, Option.getD_some, h3, h4, Option.toList,
    List.append_nil, List.nil_append, Except.map]

/-! ## Claim C9 -/

/-- Claim C9: (i) whenever a (truthy) guess of length `nparam` is supplied
and the generator succeeds on a positive population size, the member at
index 0 of the generated population is exactly the guess — the guess
unconditionally overwrites column 0 after the (bounded or unbounded) draw;
(ii) with no guess the generator is exactly the transpose of the raw
(conditionally rescaled) draw matrix: every member is a fresh draw, nothing
is overwritten. -/
theorem population_member_zero_is_guess :
    (∀ (cfg : DEConfig α) (src : RandomSource α) (t t' : ℕ)
       (pop0 : List (List α)) (g : List α),
      population_generator cfg src t = .ok (pop0, t') →
      cfg.guess = some g → g ≠ [] → g.length = cfg.nparam → 0 < cfg.npop →
      pop0.head? = some g) ∧
    (∀ (cfg : DEConfig α) (src : RandomSource α) (t : ℕ),
      cfg.guess = none →
      population_generator cfg src t
        = Except.map (fun mat => (matTranspose mat, t + cfg.nparam * cfg.npop))
            (boundedMatrix cfg src t)) := by
  constructor
  · intro cfg src t t' pop0 g hpg hg hne hlen hnpop
    unfold population_generator at hpg
    cases hbm : boundedMatrix cfg src t with
    | error e => rw [hbm] at hpg; exact absurd hpg (by simp)
    | ok mat =>
      rw [hbm] at hpg
      simp only at hpg
      rw [hg] at hpg
      have hmatlen : mat.length = cfg.nparam := boundedMatrix_length hbm
      have hrows : ∀ r ∈ mat, r.length = cfg.npop := boundedMatrix_rows hbm
      obtain ⟨g0, gs, rfl⟩ : ∃ g0 gs, g = g0 :: gs := by
        cases g with
        | nil => exact absurd rfl hne
        | cons a l => exact ⟨a, l, rfl⟩
      have hglen : (g0 :: gs).length = mat.length := by rw [hmatlen]; exact hlen
      rw [applyGuess] at hpg
      rw [if_pos hglen] at hpg
      simp only [Except.ok.injEq, Prod.mk.injEq] at hpg
      obtain ⟨hpop, _⟩ := hpg
      subst hpop
      obtain ⟨r0, mrest, rfl⟩ : ∃ r0 mrest, mat = r0 :: mrest := by
        cases mat with
        | nil =>
          exfalso
          rw [← hlen] at hmatlen
          exact absurd hmatlen.symm (by simp)
        | cons a l => exact ⟨a, l, rfl⟩
      have hr0 : r0.length = cfg.npop := hrows r0 (List.mem_cons_self r0 mrest)
      have hzip : List.zipWith (fun gi row => row.set 0 gi) (g0 :: gs) (r0 :: mrest)
          = (r0.set 0 g0) :: List.zipWith (fun gi row => row.set 0 gi) gs mrest := rfl
      unfold matTranspose
      have hhead : ((List.zipWith (fun gi row => row.set 0 gi) (g0 :: gs)
          (r0 :: mrest)).headD []).length = cfg.npop := by
        rw [hzip]
        simpa using hr0
      rw [hhead]
      obtain ⟨k, hk⟩ : ∃ k, cfg.npop = k + 1 := ⟨cfg.npop - 1, by omega⟩
      rw [hk, List.range_succ_eq_map, List.map_cons, List.head?_cons]
      congr 1
      apply List.ext_getElem?
      intro n
      rw [List.getElem?_map, List.getElem?_zipWith]
      rcases Nat.lt_or_ge n (g0 :: gs).length with hn | hn
      · have hgsome : (g0 :: gs)[n]? = some ((g0 :: gs)[n]) := List.getElem?_eq_getElem hn
        have hnm : n < (r0 :: mrest).length := by rw [← hglen]; exact hn
        have hmsome : (r0 :: mrest)[n]? = some ((r0 :: mrest)[n]) :=
          List.getElem?_eq_getElem hnm
        rw [hgsome, hmsome]
        have hmem : (r0 :: mrest)[n] ∈ (r0 :: mrest) := List.getElem_mem hnm
        have hlenrow : ((r0 :: mrest)[n]).length = cfg.npop := hrows _ hmem
        have hrne : (r0 :: mrest)[n] ≠ [] := by
          intro hc
          rw [hc] at hlenrow
          simp at hlenrow
          omega
        simp only [Option.map_some']
        rw [set_zero_getD _ _ hrne]
      · have hgnone : (g0 :: gs)[n]? = none := List.getElem?_eq_none hn
        rw [hgnone]
        simp
  · intro cfg src t hg
    unfold population_generator
    rw [hg]
    cases hbm : boundedMatrix cfg src t with
    | error e => rfl
    | ok mat => rfl

/-- Witness for C9: a bounded configuration with guess `[5, 7]` yields member
0 equal to the guess, and a guessless configuration is the bare transposed
draw. -/
theorem population_member_zero_is_guess_witness :
    ([[5, 7], [5, 5]] : List (List ℚ)).head? = some [5, 7] ∧
    population_generator (DEConfig.mk (0:ℚ) (1/2) 4 2 0 none none) srcHalf 0
      = Except.map (fun mat => (matTranspose mat, 0 + 4 * 2))
          (boundedMatrix (DEConfig.mk (0:ℚ) (1/2) 4 2 0 none none) srcHalf 0) := by
  constructor
  · exact population_member_zero_is_guess.1
      (DEConfig.mk (0:ℚ) (1/2) 2 2 0 (some [(0, 10), (0, 10)]) (some [5, 7]))
      srcHalf 0 4 [[5, 7], [5, 5]] [5, 7]
      (by norm_num [population_generator, boundedMatrix, drawMatrix, scaleGo, applyGuess,
        matTranspose, srcHalf, List.range_succ])
      rfl (by simp) rfl (by norm_num)
  · exact population_member_zero_is_guess.2
      (DEConfig.mk (0:ℚ) (1/2) 4 2 0 none none) srcHalf 0 rfl

/-! ## Claim C1 -/

/-- Claim C1 (refuting theorem): at `niter = 0` the solver completes with an
empty improvement stream, and `result` — `zip(*tuple(...))` followed by
`res[-1]` — fails (the `ValueError` of unpacking an empty `zip`) instead of
returning the initial population's minimum-cost member. -/
theorem result_fails_on_empty_stream :
    Except.map (fun p => p.2)
        (diff_evolution_solver (DEConfig.mk (0:ℚ) (1/2) 4 2 0 none none)
          fzero (1/5) [] srcHalf) = .ok [] ∧
    result (DEConfig.mk (0:ℚ) (1/2) 4 2 0 none none) fzero (1/5) [] srcHalf
      = .error "not enough values to unpack" :=
  ⟨rfl, rfl⟩

/-! ## Claim C2 -/

/-- Claim C2 (refuting theorem): the crossover mask is
`np.random.rand(3) <= kcross` concatenated with `[True]` — length 4 for
every `nparam` — so for `nparam = 5` the very first inner iteration dies in
`np.where` with a broadcast error; the claimed per-index crossover over all
`nparam` indices (with forced final index) exists only for `nparam = 4`. -/
theorem crossover_mask_fixed_length_four :
    (∀ (src : RandomSource α) (tu : ℕ) (kc : α), (crossMask src tu kc).1.length = 4) ∧
    diff_evolution_solver (DEConfig.mk (0:ℚ) (1/2) 5 4 1 none none) fzero (1/5) [] srcHalf
      = .error "operands could not be broadcast together" :=
  ⟨fun _ _ _ => rfl, rfl⟩

/-! ## Claim C10 -/

/-- Claim C10: with `npop = 1` and `niter ≥ 1` the first inner iteration
fails: `np.random.choice(idx_list, 2, replace = False)` cannot draw two
distinct indices from a single-member population, even though construction
accepted `npop = 1`. -/
theorem solver_fails_for_singleton_population
    {cfg : DEConfig α} {f : List α → α} {gkmut : α} {gbounds : List (α × α)}
    {src : RandomSource α} {pop0 : List (List α)} {t0 li : ℕ} {le : α}
    (hnpop : cfg.npop = 1) (hniter : 1 ≤ cfg.niter)
    (hpg : population_generator cfg src 0 = .ok (pop0, t0))
    (hle : least_error_idx f pop0 = .ok (li, le)) :
    diff_evolution_solver cfg f gkmut gbounds src
      = .error "Cannot take a larger sample than population when replace is False" := by
  obtain ⟨m, hm⟩ : ∃ m, cfg.niter = m + 1 := ⟨cfg.niter - 1, by omega⟩
  unfold diff_evolution_solver
  rw [hpg]
  simp only
  rw [hle]
  simp only
  rw [hm]
  unfold runGens
  rw [hnpop]
  have h1 : List.range 1 = [0] := rfl
  rw [h1]
  unfold runMembers
  unfold innerStep
  rw [hnpop]
  simp [npChoice2]

/-- Witness for C10 at a concrete `npop = 1`, `niter = 1` configuration. -/
theorem solver_fails_for_singleton_population_witness :
    diff_evolution_solver (DEConfig.mk (0:ℚ) (1/2) 4 1 1 none none) fzero (1/5) [] srcHalf
      = .error "Cannot take a larger sample than population when replace is False" :=
  @solver_fails_for_singleton_population ℚ _ (DEConfig.mk (0:ℚ) (1/2) 4 1 1 none none)
    fzero (1/5) [] srcHalf [[1/2, 1/2, 1/2, 1/2]] 4 0 0 rfl (by norm_num) rfl rfl

end DiffEvo
